import Mathlib

/-
Verification of `tools/convert_standards_to_json.py`, a spreadsheet-to-JSON
converter for age-grading standards tables.  The Python functions are
shallowly embedded: cell values become an inductive `Cell`, pandas frames
become a `DF` structure (column names plus rows of cells), Python floats
become `ℚ`, and raising functions return `Except String _`.  Text is
modelled over ASCII: Python's `str.strip`/`str.lower`/`\d` also handle
further Unicode classes, which never occur in these spreadsheets.
-/

namespace AgeGrade

/-- The characters removed by Python `str.strip()` (ASCII whitespace). -/
def isPySpace (c : Char) : Bool :=
  c == ' ' || c == '\t' || c == '\n' || c == '\r' || c == '\x0b' || c == '\x0c'

/-- ASCII decimal digit, Python regex `\d` / `str.isdigit`. -/
def isDigitChar (c : Char) : Bool :=
  '0' ≤ c && c ≤ '9'

/-- Python `str.strip()` on a character list: drop whitespace from both ends. -/
def pyStripL (l : List Char) : List Char :=
  ((l.dropWhile isPySpace).reverse.dropWhile isPySpace).reverse

/-- Python `str.strip()`. -/
def pyStrip (s : String) : String :=
  ⟨pyStripL s.data⟩

/-- Python `str.lower()` (ASCII letters). -/
def pyLower (s : String) : String :=
  ⟨s.data.map Char.toLower⟩

/-- `l` starts with the second argument, Python `str.startswith`. -/
def listStartsWith : List Char → List Char → Bool
  | _, [] => true
  | [], _ :: _ => false
  | c :: cs, d :: ds => c == d && listStartsWith cs ds

/-- Python substring test `pat in l`. -/
def containsSub : List Char → List Char → Bool
  | [], pat => listStartsWith [] pat
  | c :: t, pat => listStartsWith (c :: t) pat || containsSub t pat

/-- Python `int` on a digit string (value of a `\d+` group). -/
def natOfDigits (l : List Char) : ℕ :=
  l.foldl (fun a c => 10 * a + (c.toNat - 48)) 0

/-- Nonempty all-digit group, the regex fragment `\d+`. -/
def digitsNE (l : List Char) : Bool :=
  !l.isEmpty && l.all isDigitChar

/-- The regex fragment `\d+(?:\.\d+)?` (the seconds group of `TIME_RE`). -/
def secOK (l : List Char) : Bool :=
  let ip := l.takeWhile isDigitChar
  let rest := l.dropWhile isDigitChar
  !ip.isEmpty &&
    (match rest with
     | [] => true
     | c :: fp => c == '.' && (!fp.isEmpty && fp.all isDigitChar))

/-- Python `float` on a string matching `\d+(?:\.\d+)?`. -/
def qOfDecimal (l : List Char) : ℚ :=
  let ip := l.takeWhile isDigitChar
  let rest := l.dropWhile isDigitChar
  match rest with
  | [] => (natOfDigits ip : ℚ)
  | _ :: fp => (natOfDigits ip : ℚ) + (natOfDigits fp : ℚ) / (10 : ℚ) ^ fp.length

/-- Split a character list at every `':'` (separators are not kept). -/
def splitCol : List Char → List (List Char)
  | [] => [[]]
  | c :: rest =>
    if c == ':' then [] :: splitCol rest
    else
      match splitCol rest with
      | [] => [[c]]
      | p :: ps => (c :: p) :: ps

/-- `TIME_RE = ^(?:(\d+):)?(\d+):(\d+(?:\.\d+)?)$` with strict anchors,
returning the three capture groups (`none` for an absent hours group).
Since `\d` never matches `':'`, a match is exactly a colon-split into two
or three groups of the right shapes. -/
def TIME_RE_core (l : List Char) : Option (Option (List Char) × List Char × List Char) :=
  match splitCol l with
  | [mm, ss] => if digitsNE mm && secOK ss then some (none, mm, ss) else none
  | [h, mm, ss] =>
    if digitsNE h && (digitsNE mm && secOK ss) then some (some h, mm, ss) else none
  | _ => none

/-- Full Python `TIME_RE.match` semantics: `$` also matches just before a
single trailing newline. -/
def TIME_RE_match (l : List Char) : Option (Option (List Char) × List Char × List Char) :=
  match TIME_RE_core l with
  | some g => some g
  | none => if l.getLast? == some '\n' then TIME_RE_core l.dropLast else none

/-- A spreadsheet cell value as seen by the converter: missing (`NaN`),
pandas `Timedelta`/`Timestamp` (the latter reduced by the code to seconds
since its own midnight), `datetime.time`, `datetime.datetime`, Python
`int`/`float`, or text.  `dt.timedelta` behaves exactly as `pd.Timedelta`
(both return `total_seconds()`), so one constructor covers both. -/
inductive Cell where
  | na
  | timedelta (totalSeconds : ℚ)
  | timestamp (sinceMidnight : ℚ)
  | timeOfDay (h m s us : ℕ)
  | datetime (h m s us : ℕ)
  | int (n : ℤ)
  | float (v : ℚ)
  | str (s : String)
deriving DecidableEq

/-- `hour*3600 + minute*60 + second + microsecond/1e6`. -/
def todSeconds (h m s us : ℕ) : ℚ :=
  (h : ℚ) * 3600 + (m : ℚ) * 60 + (s : ℚ) + (us : ℚ) / 1000000

/-- Python `repr` of a short plain string (no quote/backslash escaping
arises for the cell texts modelled here). -/
def pyRepr (s : String) : String :=
  ⟨'\'' :: (s.data ++ ['\''])⟩

/-- `hms_to_seconds` from the source: `None` for missing, total seconds for
durations, seconds-since-midnight for timestamps, `h*3600+m*60+s+us/1e6`
for times and datetimes, day-fraction scaling for numerics in `(0, 1]`,
and `TIME_RE` decomposition of the stripped text otherwise; raises on an
unrecognized text. -/
def hms_to_seconds : Cell → Except String (Option ℚ)
  | .na => .ok none
  | .timedelta t => .ok (some t)
  | .timestamp t => .ok (some t)
  | .timeOfDay h m s us => .ok (some (todSeconds h m s us))
  | .datetime h m s us => .ok (some (todSeconds h m s us))
  | .int n => .ok (some (if 0 < (n : ℚ) ∧ (n : ℚ) ≤ 1 then (n : ℚ) * 86400 else (n : ℚ)))
  | .float v => .ok (some (if 0 < v ∧ v ≤ 1 then v * 86400 else v))
  | .str s =>
    match TIME_RE_match (pyStripL s.data) with
    | some (g1, g2, g3) =>
      .ok (some ((natOfDigits (g1.getD []) : ℚ) * 3600 + (natOfDigits g2 : ℚ) * 60 + qOfDecimal g3))
    | none => .error ("Unrecognized time format: " ++ pyRepr s)

/-- A Python `int` or `float` result value. -/
inductive PyNum where
  | int (n : ℤ)
  | float (v : ℚ)
deriving DecidableEq

/-- `num_to_int_if_whole` from the source, on its numeric-or-missing
domain: `None` for missing, an `int` when `float(x).is_integer()`, the
float unchanged otherwise. -/
def num_to_int_if_whole (x : Option ℚ) : Option PyNum :=
  match x with
  | none => none
  | some v => if v.den = 1 then some (.int v.num) else some (.float v)

lemma dropWhile_eq_self_of_all {p : Char → Bool} {l : List Char}
    (h : ∀ c ∈ l, p c = false) : l.dropWhile p = l := by
  cases l with
  | nil => rfl
  | cons c t => simp [List.dropWhile_cons, h c (by simp)]

lemma pyStripL_eq_self {l : List Char} (h : ∀ c ∈ l, isPySpace c = false) :
    pyStripL l = l := by
  unfold pyStripL
  rw [dropWhile_eq_self_of_all h,
    dropWhile_eq_self_of_all (fun c hc => h c (List.mem_reverse.mp hc)),
    List.reverse_reverse]

lemma pyStripL_append_newline {l : List Char} (hne : l ≠ [])
    (h : ∀ c ∈ l, isPySpace c = false) : pyStripL (l ++ ['\n']) = l := by
  unfold pyStripL
  have h1 : (l ++ ['\n']).dropWhile isPySpace = l ++ ['\n'] := by
    obtain ⟨c, t, rfl⟩ := List.exists_cons_of_ne_nil hne
    rw [List.cons_append, List.dropWhile_cons]
    simp [h c (by simp)]
  have h2 : (l ++ ['\n']).reverse = '\n' :: l.reverse := by simp
  rw [h1, h2, List.dropWhile_cons]
  have h3 : isPySpace '\n' = true := by decide
  rw [h3, if_pos rfl,
    dropWhile_eq_self_of_all (fun c hc => h c (List.mem_reverse.mp hc)),
    List.reverse_reverse]

lemma splitCol_ne_nil : ∀ l : List Char, splitCol l ≠ [] := by
  intro l
  induction l with
  | nil => simp [splitCol]
  | cons c t ih =>
    simp only [splitCol]
    split
    · simp
    · cases h : splitCol t with
      | nil => exact absurd h ih
      | cons p ps => simp [h]

lemma mem_splitCol {c : Char} : ∀ {l : List Char}, c ∈ l →
    c = ':' ∨ ∃ p ∈ splitCol l, c ∈ p := by
  intro l
  induction l with
  | nil => intro h; exact absurd h (List.not_mem_nil c)
  | cons d t ih =>
    intro h
    rcases List.mem_cons.mp h with rfl | ht
    · by_cases hd : (c == ':') = true
      · exact Or.inl (by simpa using hd)
      · right
        simp only [splitCol, hd, if_false]
        cases hs : splitCol t with
        | nil => exact absurd hs (splitCol_ne_nil t)
        | cons p ps => exact ⟨c :: p, by simp, by simp⟩
    · rcases ih ht with rfl | ⟨p, hp, hcp⟩
      · exact Or.inl rfl
      · right
        simp only [splitCol]
        split
        · exact ⟨p, by simp [hp], hcp⟩
        · cases hs : splitCol t with
          | nil => exact absurd hs (splitCol_ne_nil t)
          | cons q qs =>
            rw [hs] at hp
            rcases List.mem_cons.mp hp with rfl | hqs
            · exact ⟨d :: p, by simp, by simp [hcp]⟩
            · exact ⟨p, by simp [hqs], hcp⟩

lemma not_space_of_digit {c : Char} (h : isDigitChar c = true) : isPySpace c = false := by
  by_contra hc
  have hsp : isPySpace c = true := by
    cases hx : isPySpace c
    · exact absurd hx hc
    · rfl
  simp only [isPySpace, Bool.or_eq_true, beq_iff_eq] at hsp
  rcases hsp with ((((rfl | rfl) | rfl) | rfl) | rfl) | rfl <;> exact absurd h (by decide)

lemma digits_chars {l : List Char} (h : digitsNE l = true) :
    ∀ c ∈ l, isDigitChar c = true := by
  unfold digitsNE at h
  exact fun c hc => List.all_eq_true.mp ((Bool.and_eq_true _ _).mp h).2 c hc

lemma secOK_chars {l : List Char} (h : secOK l = true) :
    ∀ c ∈ l, isDigitChar c = true ∨ c = '.' := by
  intro c hc
  unfold secOK at h
  rw [← List.takeWhile_append_dropWhile isDigitChar l] at hc
  rcases List.mem_append.mp hc with htk | hdr
  · exact Or.inl (List.mem_takeWhile_imp htk)
  · cases hrest : l.dropWhile isDigitChar with
    | nil => rw [hrest] at hdr; exact absurd hdr (List.not_mem_nil c)
    | cons d fp =>
      rw [hrest] at h hdr
      have h2 := ((Bool.and_eq_true _ _).mp h).2
      simp only at h2
      have hd : (d == '.') = true := ((Bool.and_eq_true _ _).mp h2).1
      have hfp : fp.all isDigitChar = true :=
        ((Bool.and_eq_true _ _).mp ((Bool.and_eq_true _ _).mp h2).2).2
      rcases List.mem_cons.mp hdr with rfl | hcfp
      · exact Or.inr (by simpa using hd)
      · exact Or.inl (List.all_eq_true.mp hfp c hcfp)

lemma TIME_RE_core_eq_some {l : List Char} {g} (h : TIME_RE_core l = some g) :
    (∃ mm ss, splitCol l = [mm, ss] ∧ digitsNE mm = true ∧ secOK ss = true ∧
      g = (none, mm, ss)) ∨
    (∃ hh mm ss, splitCol l = [hh, mm, ss] ∧ digitsNE hh = true ∧
      digitsNE mm = true ∧ secOK ss = true ∧ g = (some hh, mm, ss)) := by
  unfold TIME_RE_core at h
  cases hs : splitCol l with
  | nil => rw [hs] at h; cases h
  | cons q qs =>
    rw [hs] at h
    cases qs with
    | nil =>
      have h' : (none : Option (Option (List Char) × List Char × List Char)) = some g := h
      cases h'
    | cons b bs =>
      cases bs with
      | nil =>
        have h' : (if (digitsNE q && secOK b) = true then
            some ((none : Option (List Char)), q, b) else none) = some g := h
        split at h'
        · next hcond =>
          obtain ⟨h1, h2⟩ := (Bool.and_eq_true _ _).mp hcond
          exact Or.inl ⟨q, b, rfl, h1, h2, (Option.some.inj h').symm⟩
        · cases h'
      | cons b2 bs2 =>
        cases bs2 with
        | nil =>
          have h' : (if (digitsNE q && (digitsNE b && secOK b2)) = true then
              some (some q, b, b2) else none) = some g := h
          split at h'
          · next hcond =>
            obtain ⟨h1, h23⟩ := (Bool.and_eq_true _ _).mp hcond
            obtain ⟨h2, h3⟩ := (Bool.and_eq_true _ _).mp h23
            exact Or.inr ⟨q, b, b2, rfl, h1, h2, h3, (Option.some.inj h').symm⟩
          · cases h'
        | cons b3 bs3 =>
          have h' : (none : Option (Option (List Char) × List Char × List Char)) = some g := h
          cases h'

lemma TIME_RE_core_chars {l : List Char} {g} (h : TIME_RE_core l = some g) :
    ∀ c ∈ l, isPySpace c = false := by
  intro c hc
  rcases mem_splitCol hc with rfl | ⟨p, hp, hcp⟩
  · decide
  · have hpart : digitsNE p = true ∨ secOK p = true := by
      rcases TIME_RE_core_eq_some h with
        ⟨mm, ss, hs, h1, h2, _⟩ | ⟨hh, mm, ss, hs, h1, h2, h3, _⟩
      · rw [hs] at hp
        rcases List.mem_cons.mp hp with rfl | hp2
        · exact Or.inl h1
        · rcases List.mem_cons.mp hp2 with rfl | hp3
          · exact Or.inr h2
          · exact absurd hp3 (List.not_mem_nil p)
      · rw [hs] at hp
        rcases List.mem_cons.mp hp with rfl | hp2
        · exact Or.inl h1
        · rcases List.mem_cons.mp hp2 with rfl | hp3
          · exact Or.inl h2
          · rcases List.mem_cons.mp hp3 with rfl | hp4
            · exact Or.inr h3
            · exact absurd hp4 (List.not_mem_nil p)
    rcases hpart with hd | hsec
    · exact not_space_of_digit (digits_chars hd c hcp)
    · rcases secOK_chars hsec c hcp with hdg | rfl
      · exact not_space_of_digit hdg
      · decide

lemma TIME_RE_core_nil {g} (h : TIME_RE_core [] = some g) : False := by
  simp [TIME_RE_core, splitCol] at h

/-- C1.  For every string that matches `TIME_RE`, `hms_to_seconds` returns
`H*3600 + MM*60 + SS`, with an absent hours group counting as 0. -/
theorem C1_hms_matching_time_string (s : String) (g1 : Option (List Char))
    (g2 g3 : List Char) (h : TIME_RE_match s.data = some (g1, g2, g3)) :
    hms_to_seconds (Cell.str s) =
      .ok (some ((natOfDigits (g1.getD []) : ℚ) * 3600 +
        (natOfDigits g2 : ℚ) * 60 + qOfDecimal g3)) := by
  have key : TIME_RE_match (pyStripL s.data) = some (g1, g2, g3) := by
    cases hcore : TIME_RE_core s.data with
    | some g =>
      rw [pyStripL_eq_self (TIME_RE_core_chars hcore)]
      exact h
    | none =>
      have e : TIME_RE_match s.data =
          (if (s.data.getLast? == some '\n') = true then
            TIME_RE_core s.data.dropLast else none) := by
        unfold TIME_RE_match
        rw [hcore]
      have h' : (if (s.data.getLast? == some '\n') = true then
          TIME_RE_core s.data.dropLast else none) = some (g1, g2, g3) := by
        rw [← e]; exact h
      by_cases hlast : (s.data.getLast? == some '\n') = true
      · rw [if_pos hlast] at h'
        rw [beq_iff_eq] at hlast
        have hdecomp : s.data.dropLast ++ ['\n'] = s.data :=
          List.dropLast_append_getLast? '\n' hlast
        have hne : s.data.dropLast ≠ [] := by
          intro hnil
          rw [hnil] at h'
          exact TIME_RE_core_nil h'
        have hchars := TIME_RE_core_chars h'
        have hstrip : pyStripL s.data = s.data.dropLast := by
          conv_lhs => rw [← hdecomp]
          exact pyStripL_append_newline hne hchars
        rw [hstrip]
        unfold TIME_RE_match
        rw [h']
      · rw [if_neg hlast] at h'
        cases h'
  show hms_to_seconds (Cell.str s) = _
  simp only [hms_to_seconds, key]

/-- Witness for C1 at the spec's example `"1:03:05.5"`, whose value is
`3785.5 = 7571/2`. -/
theorem C1_hms_matching_time_string_witness :
    TIME_RE_match "1:03:05.5".data = some (some ['1'], ['0', '3'], ['0', '5', '.', '5']) ∧
      hms_to_seconds (Cell.str "1:03:05.5") = .ok (some (7571 / 2)) := by
  refine ⟨by decide, ?_⟩
  rw [C1_hms_matching_time_string "1:03:05.5" (some ['1']) ['0', '3'] ['0', '5', '.', '5']
    (by decide)]
  have h1 : natOfDigits ['1'] = 1 := by decide
  have h2 : natOfDigits ['0', '3'] = 3 := by decide
  have hn1 : natOfDigits ['0', '5'] = 5 := by decide
  have hn2 : natOfDigits ['5'] = 5 := by decide
  have h3 : qOfDecimal ['0', '5', '.', '5'] = (5 : ℚ) + (5 : ℚ) / (10 : ℚ) ^ 1 := by
    rw [show qOfDecimal ['0', '5', '.', '5'] =
      (natOfDigits ['0', '5'] : ℚ) + (natOfDigits ['5'] : ℚ) / (10 : ℚ) ^ 1 from rfl,
      hn1, hn2]
    norm_num
  simp only [Option.getD, h1, h2, h3]
  norm_num

/-- C4.  A non-missing numeric cell in `(0, 1]` is scaled by 86400
(a day-fraction); any other numeric value is returned as-is. -/
theorem C4_hms_numeric (v : ℚ) (n : ℤ) :
    ((0 < v ∧ v ≤ 1) → hms_to_seconds (Cell.float v) = .ok (some (v * 86400)))
    ∧ (¬(0 < v ∧ v ≤ 1) → hms_to_seconds (Cell.float v) = .ok (some v))
    ∧ ((0 < (n : ℚ) ∧ (n : ℚ) ≤ 1) →
        hms_to_seconds (Cell.int n) = .ok (some ((n : ℚ) * 86400)))
    ∧ (¬(0 < (n : ℚ) ∧ (n : ℚ) ≤ 1) →
        hms_to_seconds (Cell.int n) = .ok (some (n : ℚ))) := by
  refine ⟨fun h => ?_, fun h => ?_, fun h => ?_, fun h => ?_⟩ <;>
    simp only [hms_to_seconds] <;> first | rw [if_pos h] | rw [if_neg h]

/-- Witness for C4 at `v = 1/2` (scaled to 43200) and `n = 5` (kept). -/
theorem C4_hms_numeric_witness :
    hms_to_seconds (Cell.float (1 / 2)) = .ok (some 43200) ∧
      hms_to_seconds (Cell.int 5) = .ok (some 5) := by
  constructor
  · rw [(C4_hms_numeric (1 / 2) 5).1 ⟨by norm_num, by norm_num⟩]
    norm_num
  · rw [(C4_hms_numeric (1 / 2) 5).2.2.2 (by norm_num)]
    norm_num

lemma listStartsWith_nil (l : List Char) : listStartsWith l [] = true := by
  cases l <;> rfl

lemma listStartsWith_append (p m : List Char) : listStartsWith (p ++ m) p = true := by
  induction p with
  | nil => exact listStartsWith_nil m
  | cons c t ih => simp [listStartsWith, ih]

lemma containsSub_of_startsWith {l p : List Char} (h : listStartsWith l p = true) :
    containsSub l p = true := by
  cases l with
  | nil => exact h
  | cons c t => simp [containsSub, h]

lemma containsSub_append_left (a : List Char) {l p : List Char}
    (h : containsSub l p = true) : containsSub (a ++ l) p = true := by
  induction a with
  | nil => simpa using h
  | cons c t ih =>
    rw [List.cons_append]
    cases ht : t ++ l with
    | nil => rw [ht] at ih; simpa [containsSub] using Or.inr ih
    | cons d ds =>
      rw [← ht]
      simp only [containsSub, Bool.or_eq_true]
      exact Or.inr ih

lemma containsSub_infix (a b p : List Char) : containsSub (a ++ (p ++ b)) p = true :=
  containsSub_append_left a (containsSub_of_startsWith (listStartsWith_append p b))

/-- C5.  `hms_to_seconds` raises exactly on a non-missing, non-time-typed,
non-numeric cell whose stripped text does not match `TIME_RE`, and the
error message contains the offending value. -/
theorem C5_hms_error_characterization (c : Cell) :
    ((∃ msg, hms_to_seconds c = .error msg) ↔
      ∃ s, c = Cell.str s ∧ TIME_RE_match (pyStripL s.data) = none)
    ∧ (∀ s msg, c = Cell.str s → hms_to_seconds c = .error msg →
        containsSub msg.data s.data = true) := by
  constructor
  · constructor
    · rintro ⟨msg, hmsg⟩
      cases c with
      | str s =>
        refine ⟨s, rfl, ?_⟩
        cases hm : TIME_RE_match (pyStripL s.data) with
        | some g =>
          obtain ⟨g1, g2, g3⟩ := g
          simp only [hms_to_seconds, hm] at hmsg
          exact Except.noConfusion hmsg
        | none => rfl
      | na => exact Except.noConfusion hmsg
      | timedelta t => exact Except.noConfusion hmsg
      | timestamp t => exact Except.noConfusion hmsg
      | timeOfDay h m sec us => exact Except.noConfusion hmsg
      | datetime h m sec us => exact Except.noConfusion hmsg
      | int n => exact Except.noConfusion hmsg
      | float v => exact Except.noConfusion hmsg
    · rintro ⟨s, rfl, hm⟩
      refine ⟨"Unrecognized time format: " ++ pyRepr s, ?_⟩
      simp [hms_to_seconds, hm]
  · rintro s msg rfl herr
    cases hm : TIME_RE_match (pyStripL s.data) with
    | some g =>
      obtain ⟨g1, g2, g3⟩ := g
      simp only [hms_to_seconds, hm] at herr
      exact Except.noConfusion herr
    | none =>
      have hmsg : msg = "Unrecognized time format: " ++ pyRepr s := by
        simp only [hms_to_seconds, hm] at herr
        exact (Except.error.inj herr).symm
      rw [hmsg, String.data_append]
      show containsSub
        ("Unrecognized time format: ".data ++ ('\'' :: (s.data ++ ['\'']))) s.data = true
      have hassoc : "Unrecognized time format: ".data ++ ('\'' :: (s.data ++ ['\''])) =
          ("Unrecognized time format: ".data ++ ['\'']) ++ (s.data ++ ['\'']) := by
        simp
      rw [hassoc]
      exact containsSub_infix _ _ _

/-- Witness for C5: `"zzz"` raises, and the message contains `"zzz"`. -/
theorem C5_hms_error_characterization_witness :
    ∃ msg, hms_to_seconds (Cell.str "zzz") = Except.error msg ∧
      containsSub msg.data "zzz".data = true := by
  have h := C5_hms_error_characterization (Cell.str "zzz")
  obtain ⟨msg, hmsg⟩ := h.1.mpr ⟨"zzz", rfl, by decide⟩
  exact ⟨msg, hmsg, h.2 "zzz" msg rfl hmsg⟩

/-- C8.  `num_to_int_if_whole`: missing maps to `None`; a whole float maps
to the corresponding `int`; a fractional float is returned unchanged. -/
theorem C8_num_to_int_if_whole :
    num_to_int_if_whole none = none
    ∧ ∀ v : ℚ,
      (∀ n : ℤ, v = (n : ℚ) → num_to_int_if_whole (some v) = some (PyNum.int n))
      ∧ ((¬∃ n : ℤ, v = (n : ℚ)) → num_to_int_if_whole (some v) = some (PyNum.float v)) := by
  refine ⟨rfl, fun v => ⟨?_, ?_⟩⟩
  · rintro n rfl
    simp [num_to_int_if_whole, Rat.den_intCast, Rat.num_intCast]
  · intro hn
    have hden : v.den ≠ 1 := by
      intro hd
      refine hn ⟨v.num, ?_⟩
      rw [← Rat.num_div_den v, hd]
      norm_num
    simp [num_to_int_if_whole, hden]

/-- Witness for C8 at the spec's examples `1225.0` and `12.5`. -/
theorem C8_num_to_int_if_whole_witness :
    num_to_int_if_whole (some 1225) = some (PyNum.int 1225)
    ∧ num_to_int_if_whole (some (25 / 2)) = some (PyNum.float (25 / 2)) := by
  constructor
  · exact (C8_num_to_int_if_whole.2 1225).1 1225 (by norm_num)
  · refine (C8_num_to_int_if_whole.2 (25 / 2)).2 ?_
    rintro ⟨n, hn⟩
    have h2 : (25 : ℚ) = 2 * n := by
      field_simp at hn
      linarith
    have h3 : (25 : ℤ) = 2 * n := by exact_mod_cast h2
    omega

/-- The per-cell test of `find_header_row`: the cell text, stripped then
lower-cased, equals `"age"` or starts with `"age"`. -/
def cellIsAgeHeader (v : String) : Bool :=
  let w := (pyLower (pyStrip v)).data
  w == "age".data || listStartsWith w "age".data

/-- A raw-grid row has a cell passing the age-header test (`any` over
`row.values`, each cell taken in its `str` form). -/
def rowHasAge (row : List String) : Bool :=
  row.any cellIsAgeHeader

/-- `find_header_row`: first index `r` in `range(min(50, len(raw)))` whose
row passes `rowHasAge`, else `None`. -/
def find_header_row (raw : List (List String)) : Option ℕ :=
  (List.range (min 50 raw.length)).find? (fun r => rowHasAge (raw.getD r []))

/-- `hdr = find_header_row(raw) or 0` with Python falsiness (`None` and
`0` are both falsy). -/
def detected_header (raw : List (List String)) : ℕ :=
  match find_header_row raw with
  | some r => if r == 0 then 0 else r
  | none => 0

lemma find?_eq_some_first {α : Type} (p : α → Bool) :
    ∀ (l : List α) (c : α),
      l.find? p = some c ↔
        ∃ i : ℕ, l[i]? = some c ∧ p c = true ∧
          ∀ j : ℕ, j < i → ∀ x, l[j]? = some x → p x = false := by
  intro l
  induction l with
  | nil => intro c; simp
  | cons a t ih =>
    intro c
    by_cases hpa : p a = true
    · rw [List.find?_cons_of_pos _ hpa]
      constructor
      · intro h
        rw [Option.some.inj h] at hpa
        refine ⟨0, by simpa using (Option.some.inj h), hpa, ?_⟩
        intro j hj
        exact absurd hj (Nat.not_lt_zero j)
      · rintro ⟨i, hi, hpc, hmin⟩
        cases i with
        | zero => simpa using hi
        | succ k =>
          have h0 := hmin 0 (Nat.succ_pos k) a (by simp)
          rw [hpa] at h0
          cases h0
    · have hpa' : p a = false := by
        cases h : p a
        · rfl
        · exact absurd h hpa
      rw [List.find?_cons_of_neg _ hpa]
      rw [ih c]
      constructor
      · rintro ⟨i, hi, hpc, hmin⟩
        refine ⟨i + 1, by simpa using hi, hpc, ?_⟩
        intro j hj x hx
        cases j with
        | zero => rw [← Option.some.inj (by simpa using hx : some a = some x)]; exact hpa'
        | succ k => exact hmin k (by omega) x (by simpa using hx)
      · rintro ⟨i, hi, hpc, hmin⟩
        cases i with
        | zero =>
          rw [← Option.some.inj (by simpa using hi : some a = some c)] at hpc
          exact absurd hpc hpa
        | succ k =>
          refine ⟨k, by simpa using hi, hpc, ?_⟩
          intro j hj x hx
          exact hmin (j + 1) (by omega) x (by simpa using hx)

/-- C6.  `find_header_row` returns the least index `r < min(50, len)` whose
row has an age-header cell, and header detection defaults to row 0 when no
such row exists. -/
theorem C6_find_header_row (raw : List (List String)) :
    (∀ r, find_header_row raw = some r ↔
      (r < min 50 raw.length ∧ rowHasAge (raw.getD r []) = true ∧
        ∀ j, j < r → rowHasAge (raw.getD j []) = false))
    ∧ (find_header_row raw = none → detected_header raw = 0)
    ∧ (∀ r, find_header_row raw = some r → detected_header raw = r) := by
  refine ⟨fun r => ?_, fun h => ?_, fun r h => ?_⟩
  · unfold find_header_row
    rw [find?_eq_some_first]
    constructor
    · rintro ⟨i, hi, hpc, hmin⟩
      have hilt : i < min 50 raw.length := by
        by_contra hge
        rw [List.getElem?_eq_none (by simpa using Nat.le_of_not_lt hge)] at hi
        cases hi
      have hri : r = i := by
        rw [List.getElem?_range hilt] at hi
        exact (Option.some.inj hi).symm
      subst hri
      refine ⟨hilt, hpc, ?_⟩
      intro j hj
      exact hmin j hj j (List.getElem?_range (Nat.lt_trans hj hilt))
    · rintro ⟨hlt, hpc, hmin⟩
      refine ⟨r, List.getElem?_range hlt, hpc, ?_⟩
      intro j hj x hx
      have hjlt : j < min 50 raw.length := Nat.lt_trans hj hlt
      rw [List.getElem?_range hjlt] at hx
      rw [← Option.some.inj hx]
      exact hmin j hj
  · unfold detected_header
    rw [h]
  · unfold detected_header
    rw [h]
    rcases Nat.eq_zero_or_pos r with rfl | hr
    · rfl
    · simp [Nat.pos_iff_ne_zero.mp hr]

/-- Concrete grid for the C6 witness: rows 0-2 have no age cell, row 3 is
exactly `"Age"`. -/
def c6grid : List (List String) := [["h"], ["x", "y"], ["z"], ["Age", "5K"], ["40", "1225"]]

/-- Witness for C6: the header row of `c6grid` resolves to 3. -/
theorem C6_find_header_row_witness :
    find_header_row c6grid = some 3 ∧ detected_header c6grid = 3 := by
  have h3 : find_header_row c6grid = some 3 :=
    ((C6_find_header_row c6grid).1 3).mpr (by decide)
  exact ⟨h3, (C6_find_header_row c6grid).2.2 3 h3⟩

/-- The "exact-ish" age-column test of `find_age_col`: `c.strip().lower()`
equals `"age"` or starts with `"age "`, `"age("`, `"age/"` or `"age-"`. -/
def isAgeExact (c : String) : Bool :=
  let cl := (pyLower (pyStrip c)).data
  cl == "age".data || listStartsWith cl "age ".data || listStartsWith cl "age(".data ||
    listStartsWith cl "age/".data || listStartsWith cl "age-".data

/-- The fallback test of `find_age_col`: `"age" in c.lower()`. -/
def hasAgeSub (c : String) : Bool :=
  containsSub (pyLower c).data "age".data

/-- Rendering of the column-name list inside the error message
(`f"{list(cols)}"`): every name appears verbatim, comma-separated. -/
def joinColsData : List String → List Char
  | [] => []
  | c :: rest => c.data ++ (',' :: (' ' :: joinColsData rest))

/-- `find_age_col`: first exact-ish age column, else first column containing
`"age"`, else an error listing all column names. -/
def find_age_col (cols : List String) : Except String String :=
  match cols.find? isAgeExact with
  | some c => .ok c
  | none =>
    match cols.find? hasAgeSub with
    | some c => .ok c
    | none => .error ⟨"Could not locate Age column. Columns: ".data ++ joinColsData cols⟩

lemma listStartsWith_prefix_split {l p q : List Char}
    (h : listStartsWith l (p ++ q) = true) : listStartsWith l p = true := by
  induction p generalizing l with
  | nil => exact listStartsWith_nil l
  | cons c t ih =>
    cases l with
    | nil => cases h
    | cons d ds =>
      simp only [List.cons_append, listStartsWith, Bool.and_eq_true] at h ⊢
      exact ⟨h.1, ih h.2⟩

lemma startsWith_exists {l p : List Char} (h : listStartsWith l p = true) :
    ∃ m, l = p ++ m := by
  induction p generalizing l with
  | nil => exact ⟨l, rfl⟩
  | cons c t ih =>
    cases l with
    | nil => cases h
    | cons d ds =>
      simp only [listStartsWith, Bool.and_eq_true, beq_iff_eq] at h
      obtain ⟨rfl, h2⟩ := h
      obtain ⟨m, rfl⟩ := ih h2
      exact ⟨m, rfl⟩

lemma pyStripL_infix (l : List Char) : ∃ a b, l = a ++ (pyStripL l ++ b) := by
  have ha : l = l.takeWhile isPySpace ++ l.dropWhile isPySpace :=
    (List.takeWhile_append_dropWhile isPySpace l).symm
  have hb : (l.dropWhile isPySpace).reverse =
      (l.dropWhile isPySpace).reverse.takeWhile isPySpace ++
        (l.dropWhile isPySpace).reverse.dropWhile isPySpace :=
    (List.takeWhile_append_dropWhile isPySpace _).symm
  have hm2 : l.dropWhile isPySpace =
      ((l.dropWhile isPySpace).reverse.dropWhile isPySpace).reverse ++
        ((l.dropWhile isPySpace).reverse.takeWhile isPySpace).reverse := by
    conv_lhs => rw [← List.reverse_reverse (l.dropWhile isPySpace), hb]
    rw [List.reverse_append]
  refine ⟨l.takeWhile isPySpace, ((l.dropWhile isPySpace).reverse.takeWhile isPySpace).reverse, ?_⟩
  calc l = l.takeWhile isPySpace ++ l.dropWhile isPySpace := ha
    _ = l.takeWhile isPySpace ++
        (((l.dropWhile isPySpace).reverse.dropWhile isPySpace).reverse ++
          ((l.dropWhile isPySpace).reverse.takeWhile isPySpace).reverse) := by rw [← hm2]
    _ = _ := rfl

lemma isAgeExact_startsWith {c : String} (h : isAgeExact c = true) :
    listStartsWith (pyLower (pyStrip c)).data "age".data = true := by
  unfold isAgeExact at h
  simp only [Bool.or_eq_true] at h
  rcases h with (((h | h) | h) | h) | h
  · have he : (pyLower (pyStrip c)).data = "age".data := by simpa using h
    rw [he]
    simpa using listStartsWith_append "age".data []
  · exact listStartsWith_prefix_split (p := "age".data) (q := [' ']) h
  · exact listStartsWith_prefix_split (p := "age".data) (q := ['(']) h
  · exact listStartsWith_prefix_split (p := "age".data) (q := ['/']) h
  · exact listStartsWith_prefix_split (p := "age".data) (q := ['-']) h

lemma isAgeExact_imp_hasAgeSub {c : String} (h : isAgeExact c = true) :
    hasAgeSub c = true := by
  obtain ⟨m, hm⟩ := startsWith_exists (isAgeExact_startsWith h)
  obtain ⟨a, b, hab⟩ := pyStripL_infix c.data
  unfold hasAgeSub
  have hdata : (pyLower c).data =
      a.map Char.toLower ++ ("age".data ++ (m ++ b.map Char.toLower)) := by
    show c.data.map Char.toLower = _
    rw [hab]
    have hstrip : (pyStripL c.data).map Char.toLower = "age".data ++ m := by
      show (pyLower (pyStrip c)).data = "age".data ++ m
      exact hm
    simp only [List.map_append, hstrip]
    simp [List.append_assoc]
  rw [hdata]
  exact containsSub_infix _ _ _

/-- C7.  `find_age_col` prefers the first exact-ish age column, falls back
to the first column containing `"age"`, and errors (reporting every column
name) exactly when no column contains `"age"`. -/
theorem C7_find_age_col (cols : List String) :
    (∀ c, find_age_col cols = .ok c →
      (∃ i : ℕ, cols[i]? = some c ∧ isAgeExact c = true ∧
        ∀ j : ℕ, j < i → ∀ x, cols[j]? = some x → isAgeExact x = false)
      ∨ ((∀ x ∈ cols, isAgeExact x = false) ∧
        ∃ i : ℕ, cols[i]? = some c ∧ hasAgeSub c = true ∧
          ∀ j : ℕ, j < i → ∀ x, cols[j]? = some x → hasAgeSub x = false))
    ∧ ((∃ e, find_age_col cols = .error e) ↔ ∀ x ∈ cols, hasAgeSub x = false)
    ∧ (∀ e, find_age_col cols = .error e → ∀ x ∈ cols, containsSub e.data x.data = true) := by
  refine ⟨fun c hc => ?_, ⟨fun he => ?_, fun hall => ?_⟩, fun e he x hx => ?_⟩
  · unfold find_age_col at hc
    cases h1 : cols.find? isAgeExact with
    | some c0 =>
      rw [h1] at hc
      have hcc : c0 = c := Except.ok.inj hc
      subst hcc
      exact Or.inl ((find?_eq_some_first isAgeExact cols c0).mp h1)
    | none =>
      rw [h1] at hc
      cases h2 : cols.find? hasAgeSub with
      | some c0 =>
        rw [h2] at hc
        have hcc : c0 = c := Except.ok.inj hc
        subst hcc
        refine Or.inr ⟨?_, (find?_eq_some_first hasAgeSub cols c0).mp h2⟩
        intro x hx
        have := List.find?_eq_none.mp h1 x hx
        cases h : isAgeExact x
        · rfl
        · exact absurd h this
      | none =>
        rw [h2] at hc
        cases hc
  · obtain ⟨e, he⟩ := he
    unfold find_age_col at he
    cases h1 : cols.find? isAgeExact with
    | some c0 => rw [h1] at he; cases he
    | none =>
      rw [h1] at he
      cases h2 : cols.find? hasAgeSub with
      | some c0 => rw [h2] at he; cases he
      | none =>
        intro x hx
        have := List.find?_eq_none.mp h2 x hx
        cases h : hasAgeSub x
        · rfl
        · exact absurd h this
  · have h1 : cols.find? isAgeExact = none := by
      rw [List.find?_eq_none]
      intro x hx hex
      have hfx := hall x hx
      rw [isAgeExact_imp_hasAgeSub hex] at hfx
      exact Bool.noConfusion hfx
    have h2 : cols.find? hasAgeSub = none := by
      rw [List.find?_eq_none]
      intro x hx hsx
      have hfx := hall x hx
      rw [hsx] at hfx
      exact Bool.noConfusion hfx
    refine ⟨⟨"Could not locate Age column. Columns: ".data ++ joinColsData cols⟩, ?_⟩
    unfold find_age_col
    rw [h1, h2]
  · unfold find_age_col at he
    cases h1 : cols.find? isAgeExact with
    | some c0 => rw [h1] at he; cases he
    | none =>
      rw [h1] at he
      cases h2 : cols.find? hasAgeSub with
      | some c0 => rw [h2] at he; cases he
      | none =>
        rw [h2] at he
        have hmsg := Except.error.inj he
        obtain ⟨a, b, hab⟩ := (by
          clear he hmsg h1 h2
          induction cols with
          | nil => cases hx
          | cons c rest ih =>
            rcases List.mem_cons.mp hx with rfl | h2
            · exact ⟨[], ',' :: (' ' :: joinColsData rest), rfl⟩
            · obtain ⟨a, b, habi⟩ := ih h2
              refine ⟨c.data ++ (',' :: (' ' :: a)), b, ?_⟩
              simp [joinColsData, habi] :
          ∃ a b, joinColsData cols = a ++ (x.data ++ b))
        rw [← hmsg]
        show containsSub ("Could not locate Age column. Columns: ".data ++ joinColsData cols)
          x.data = true
        rw [hab, ← List.append_assoc]
        exact containsSub_infix _ _ _

/-- Witness for C7: in `["Year", "Age (yrs)", "Stage"]` the exact-ish rule
picks index 1. -/
theorem C7_find_age_col_witness :
    (∃ i : ℕ, ["Year", "Age (yrs)", "Stage"][i]? = some "Age (yrs)" ∧
      isAgeExact "Age (yrs)" = true ∧
      ∀ j : ℕ, j < i → ∀ x, ["Year", "Age (yrs)", "Stage"][j]? = some x →
        isAgeExact x = false)
    ∨ ((∀ x ∈ ["Year", "Age (yrs)", "Stage"], isAgeExact x = false) ∧
      ∃ i : ℕ, ["Year", "Age (yrs)", "Stage"][i]? = some "Age (yrs)" ∧
        hasAgeSub "Age (yrs)" = true ∧
        ∀ j : ℕ, j < i → ∀ x, ["Year", "Age (yrs)", "Stage"][j]? = some x →
          hasAgeSub x = false) :=
  (C7_find_age_col ["Year", "Age (yrs)", "Stage"]).1 "Age (yrs)" rfl

/-- `normalize_key`: strip, lower-case, and keep only `[a-z0-9]`. -/
def normalize_key (s : String) : String :=
  ⟨(pyLower (pyStrip s)).data.filter
    (fun c => ('a' ≤ c && c ≤ 'z') || ('0' ≤ c && c ≤ '9'))⟩

/-- Lookup in `by_norm = {normalize_key(s): s for s in sheets}`: on a
normalized-key collision the later sheet overwrites the earlier one, so the
lookup finds the last matching sheet. -/
def lookupByNorm (sheets : List String) (k : String) : Option String :=
  sheets.reverse.find? (fun s => normalize_key s == k)

/-- The inner `pick` of `choose_sheets`: first already-normalized candidate
key present in `by_norm` wins. -/
def pick (sheets : List String) : List String → Option String
  | [] => none
  | k :: rest =>
    match lookupByNorm sheets k with
    | some s => some s
    | none => pick sheets rest

/-- Python falsiness of an optional sheet name (`if not factors:`):
`None` and the empty string are falsy. -/
def pyFalsyStr : Option String → Bool
  | none => true
  | some s => s == ""

/-- The last-resort loop: first sheet whose lowercase raw name contains the
role substring. -/
def fallbackScan (sheets : List String) (sub : String) : Option String :=
  sheets.find? (fun s => containsSub (pyLower s).data sub.data)

/-- The `if not role: for s in sheets: ...` fallback block: when the picked
value is falsy, replace it by the first substring match (keeping the old
value when the scan also fails). -/
def withFallback (sheets : List String) (v : Option String) (sub : String) : Option String :=
  if pyFalsyStr v then
    match fallbackScan sheets sub with
    | some s => some s
    | none => v
  else v

/-- Alias list for the "factors" role, in source order (incl. the 2025
female typo). -/
def factorsAliases : List String :=
  ["AgeStdFactors", "Age Factors", "Age factors", "Age Facctors"]

/-- Alias list for the "sec" role. -/
def secAliases : List String := ["AgeStdSec", "AgeStanSec"]

/-- Alias list for the "hms" role. -/
def hmsAliases : List String := ["AgeStdHMS", "AgeStanHMS"]

/-- `choose_sheets`: resolve the three roles by alias pick plus substring
fallback, raising (with the available sheet names) if any role is falsy. -/
def choose_sheets (sheets : List String) : Except String (String × String × String) :=
  if pyFalsyStr (withFallback sheets (pick sheets (factorsAliases.map normalize_key)) "factor")
      || pyFalsyStr (withFallback sheets (pick sheets (secAliases.map normalize_key)) "sec")
      || pyFalsyStr (withFallback sheets (pick sheets (hmsAliases.map normalize_key)) "hms") then
    .error ⟨"missing sheets. Available: ".data ++ joinColsData sheets⟩
  else
    .ok ((withFallback sheets (pick sheets (factorsAliases.map normalize_key)) "factor").getD "",
      (withFallback sheets (pick sheets (secAliases.map normalize_key)) "sec").getD "",
      (withFallback sheets (pick sheets (hmsAliases.map normalize_key)) "hms").getD "")

/-- The resolution rule exactly as the claim words it: the first alias (in
order) that matches a normalized sheet name wins (resolved through the
normalized lookup); only if no alias matches is the first sheet whose
lowercase raw name contains the role substring used. -/
def resolveRoleSpec (sheets aliases : List String) (sub : String) : Option String :=
  match aliases.find? (fun a => sheets.any (fun s => normalize_key s == normalize_key a)) with
  | some a => lookupByNorm sheets (normalize_key a)
  | none => fallbackScan sheets sub

lemma lookup_isSome (sheets : List String) (k : String) :
    (lookupByNorm sheets k).isSome = sheets.any (fun s => normalize_key s == k) := by
  unfold lookupByNorm
  rw [Bool.eq_iff_iff, List.find?_isSome, List.any_eq_true]
  constructor
  · rintro ⟨x, hx, hp⟩
    exact ⟨x, List.mem_reverse.mp hx, hp⟩
  · rintro ⟨x, hx, hp⟩
    exact ⟨x, List.mem_reverse.mpr hx, hp⟩

lemma pick_mem {sheets : List String} :
    ∀ {ks : List String} {s : String}, pick sheets ks = some s → s ∈ sheets := by
  intro ks
  induction ks with
  | nil => intro s h; cases h
  | cons k rest ih =>
    intro s h
    unfold pick at h
    cases hl : lookupByNorm sheets k with
    | some s0 =>
      rw [hl] at h
      rw [← Option.some.inj h]
      exact List.mem_reverse.mp (List.mem_of_find?_eq_some hl)
    | none =>
      rw [hl] at h
      exact ih h

lemma fallbackScan_mem {sheets : List String} {sub s : String}
    (h : fallbackScan sheets sub = some s) : s ∈ sheets :=
  List.mem_of_find?_eq_some h

lemma pick_eq (sheets : List String) :
    ∀ aliases : List String,
      pick sheets (aliases.map normalize_key) =
        match aliases.find?
            (fun a => sheets.any (fun s => normalize_key s == normalize_key a)) with
        | some a => lookupByNorm sheets (normalize_key a)
        | none => none := by
  intro aliases
  induction aliases with
  | nil => rfl
  | cons a rest ih =>
    rw [List.map_cons]
    show (match lookupByNorm sheets (normalize_key a) with
      | some s => some s
      | none => pick sheets (rest.map normalize_key)) = _
    cases hp : sheets.any (fun s => normalize_key s == normalize_key a) with
    | true =>
      have hfind : List.find?
          (fun a => sheets.any fun s => normalize_key s == normalize_key a) (a :: rest) =
            some a := by
        simp only [List.find?_cons, hp]
      rw [hfind]
      cases hl : lookupByNorm sheets (normalize_key a) with
      | some s => simp [hl]
      | none =>
        have hsome : (lookupByNorm sheets (normalize_key a)).isSome = true := by
          rw [lookup_isSome]
          exact hp
        rw [hl] at hsome
        cases hsome
    | false =>
      have hfind : List.find?
          (fun a => sheets.any fun s => normalize_key s == normalize_key a) (a :: rest) =
            List.find? (fun a => sheets.any fun s => normalize_key s == normalize_key a) rest := by
        simp only [List.find?_cons, hp]
      rw [hfind]
      cases hl : lookupByNorm sheets (normalize_key a) with
      | some s =>
        have hsome : (lookupByNorm sheets (normalize_key a)).isSome = true := by
          rw [hl]
          rfl
        rw [lookup_isSome, hp] at hsome
        cases hsome
      | none =>
        simp only [hl]
        exact ih

lemma withFallback_eq_spec (sheets : List String) (hne : ∀ s ∈ sheets, s ≠ "")
    (aliases : List String) (sub : String) :
    withFallback sheets (pick sheets (aliases.map normalize_key)) sub =
      resolveRoleSpec sheets aliases sub := by
  unfold resolveRoleSpec
  have hpk := pick_eq sheets aliases
  cases hfind : aliases.find?
      (fun a => sheets.any fun s => normalize_key s == normalize_key a) with
  | some a =>
    simp only [hfind] at hpk ⊢
    cases hl : lookupByNorm sheets (normalize_key a) with
    | some s =>
      rw [hl] at hpk
      have hs : s ∈ sheets := pick_mem hpk
      have hfal : pyFalsyStr (some s) = false := by
        simp [pyFalsyStr, hne s hs]
      unfold withFallback
      rw [hpk, hfal]
      simp
    | none =>
      have ha : a ∈ aliases := List.mem_of_find?_eq_some hfind
      have hp : sheets.any (fun s => normalize_key s == normalize_key a) = true := by
        have := List.find?_some hfind
        simpa using this
      have hsome : (lookupByNorm sheets (normalize_key a)).isSome = true := by
        rw [lookup_isSome]
        exact hp
      rw [hl] at hsome
      cases hsome
  | none =>
    simp only [hfind] at hpk ⊢
    unfold withFallback
    rw [hpk]
    show (if pyFalsyStr none then
      match fallbackScan sheets sub with
      | some s => some s
      | none => none else none) = fallbackScan sheets sub
    rw [show pyFalsyStr none = true from rfl, if_pos rfl]
    cases hf : fallbackScan sheets sub with
    | some s => rfl
    | none => rfl

lemma resolveRoleSpec_mem {sheets aliases : List String} {sub s : String}
    (h : resolveRoleSpec sheets aliases sub = some s) : s ∈ sheets := by
  unfold resolveRoleSpec at h
  cases hf : aliases.find?
      (fun a => sheets.any (fun s => normalize_key s == normalize_key a)) with
  | some a =>
    rw [hf] at h
    exact List.mem_reverse.mp (List.mem_of_find?_eq_some h)
  | none =>
    rw [hf] at h
    exact fallbackScan_mem h

/-- C2.  `choose_sheets` resolves each role by its ordered alias list under
normalization, falling back to substring search only when no alias matches;
it succeeds with the three resolved names exactly when every role resolves
(sheet names in a workbook are nonempty). -/
theorem C2_choose_sheets (sheets : List String) (hne : ∀ s ∈ sheets, s ≠ "") :
    (∀ f sc hm,
      resolveRoleSpec sheets factorsAliases "factor" = some f →
      resolveRoleSpec sheets secAliases "sec" = some sc →
      resolveRoleSpec sheets hmsAliases "hms" = some hm →
      choose_sheets sheets = .ok (f, sc, hm))
    ∧ ((resolveRoleSpec sheets factorsAliases "factor" = none ∨
        resolveRoleSpec sheets secAliases "sec" = none ∨
        resolveRoleSpec sheets hmsAliases "hms" = none) →
        ∃ e, choose_sheets sheets = .error e) := by
  have hf := withFallback_eq_spec sheets hne factorsAliases "factor"
  have hs := withFallback_eq_spec sheets hne secAliases "sec"
  have hh := withFallback_eq_spec sheets hne hmsAliases "hms"
  constructor
  · intro f sc hm h1 h2 h3
    unfold choose_sheets
    rw [hf, hs, hh, h1, h2, h3]
    have hff : pyFalsyStr (some f) = false := by
      simp [pyFalsyStr, hne f (resolveRoleSpec_mem h1)]
    have hfs : pyFalsyStr (some sc) = false := by
      simp [pyFalsyStr, hne sc (resolveRoleSpec_mem h2)]
    have hfh : pyFalsyStr (some hm) = false := by
      simp [pyFalsyStr, hne hm (resolveRoleSpec_mem h3)]
    rw [hff, hfs, hfh]
    rfl
  · intro hnone
    refine ⟨⟨"missing sheets. Available: ".data ++ joinColsData sheets⟩, ?_⟩
    unfold choose_sheets
    rw [hf, hs, hh]
    rcases hnone with h | h | h <;> rw [h] <;> simp [pyFalsyStr]

/-- Witness for C2 at the spec's example sheet list: the typo alias and the
"Stan" aliases resolve all three roles. -/
theorem C2_choose_sheets_witness :
    choose_sheets ["Age Facctors", "AgeStanSec", "AgeStanHMS"] =
      .ok ("Age Facctors", "AgeStanSec", "AgeStanHMS") :=
  (C2_choose_sheets ["Age Facctors", "AgeStanSec", "AgeStanHMS"] (by decide)).1
    "Age Facctors" "AgeStanSec" "AgeStanHMS" rfl rfl rfl

/-- `normalize`: strip, then collapse each internal whitespace run to one
space (`re.sub(r"\s+", " ", s.strip())`). -/
def collapseWS : List Char → List Char
  | [] => []
  | [c] => if isPySpace c then [' '] else [c]
  | c :: d :: rest =>
    if isPySpace c then
      (if isPySpace d then collapseWS (d :: rest) else ' ' :: collapseWS (d :: rest))
    else c :: collapseWS (d :: rest)

/-- `normalize` from the source. -/
def normalize (s : String) : String :=
  ⟨collapseWS (pyStripL s.data)⟩

/-- Decimal digits of `n`, most significant first (`str` of a
non-negative int); fuel-structured so it evaluates in the kernel. -/
def natToDigitsAux : ℕ → ℕ → List Char → List Char
  | 0, _, acc => acc
  | fuel + 1, n, acc =>
    if n < 10 then Char.ofNat (48 + n % 10) :: acc
    else natToDigitsAux fuel (n / 10) (Char.ofNat (48 + n % 10) :: acc)

/-- Python `str` of an integer (ages are non-negative in practice). -/
def intToStr (n : ℤ) : String :=
  if n < 0 then ⟨'-' :: natToDigitsAux (n.natAbs + 1) n.natAbs []⟩
  else ⟨natToDigitsAux (n.toNat + 1) n.toNat []⟩

/-- A pandas frame after header detection: column names (in order) and
rows of cells, row `r`'s cell for column `c` sitting at `c`'s index. -/
structure DF where
  cols : List String
  rows : List (List Cell)

/-- Cell of row `r` at named column `c` (first column of that name). -/
def cellAt (df : DF) (r : List Cell) (c : String) : Cell :=
  r.getD (df.cols.findIdx (fun x => x == c)) Cell.na

/-- `pd.isna` on a cell. -/
def isNa : Cell → Bool
  | .na => true
  | _ => false

/-- The row filter `pd.notna(x) and str(x).strip().isdigit()`, evaluated
per cell kind: `str` of a float always contains `.`/`e`, of the time kinds
contains `:` or `-`, and of a negative int starts with `-`, so only
non-negative ints and stripped all-digit texts pass. -/
def ageRowKeep : Cell → Bool
  | .int n => decide (0 ≤ n)
  | .str s =>
    let t := pyStripL s.data
    !t.isEmpty && t.all isDigitChar
  | _ => false

/-- `int(x)` on a cell that passed `ageRowKeep` (the `astype(int)` cast);
0 elsewhere (never reached on kept rows). -/
def cellToInt : Cell → ℤ
  | .int n => n
  | .str s => (natOfDigits (pyStripL s.data) : ℤ)
  | _ => 0

/-- Python dict assignment `m[k] = v`: replace in place if the key exists,
else append. -/
def dinsert {α : Type} (m : List (String × α)) (k : String) (v : α) : List (String × α) :=
  if m.any (fun p => p.1 == k) then m.map (fun p => if p.1 == k then (k, v) else p)
  else m ++ [(k, v)]

/-- One event column's inner map: iterate the kept rows (after the no-op
`dropna(subset=[age_col])`), writing `str(age) -> value_transform(cell)`;
a later duplicate age overwrites the earlier entry. -/
def eventMapping {α : Type} (df : DF) (kept : List (List Cell)) (ac ev : String)
    (vparse : Cell → α) : List (String × α) :=
  (kept.filter (fun r => !isNa (cellAt df r ac))).foldl
    (fun m r => dinsert m (intToStr (cellToInt (cellAt df r ac))) (vparse (cellAt df r ev)))
    []

/-- The row filter of `df_to_age_event_map`
(`df = df[df[age_col].apply(...)]`). -/
def keptRows (df : DF) (ac : String) : List (List Cell) :=
  df.rows.filter (fun r => ageRowKeep (cellAt df r ac))

/-- `ages = df[age_col].tolist()` after the digit filter and int cast. -/
def agesList (df : DF) (ac : String) : List ℤ :=
  (keptRows df ac).map (fun r => cellToInt (cellAt df r ac))

/-- `events = [c for c in df.columns if c != age_col]`. -/
def eventsList (df : DF) (ac : String) : List String :=
  df.cols.filter (fun c => !(c == ac))

/-- The outer dict: `out[normalize(event)] = mapping` over the events. -/
def outMap {α : Type} (df : DF) (ac : String) (vparse : Cell → α) :
    List (String × List (String × α)) :=
  (eventsList df ac).foldl
    (fun acc ev => dinsert acc (normalize ev) (eventMapping df (keptRows df ac) ac ev vparse))
    []

/-- `df_to_age_event_map`: locate the age column, keep digit-age rows,
cast ages to int, and build the event-name-keyed nested map (event names
normalized; a normalized-name collision overwrites). -/
def df_to_age_event_map {α : Type} (df : DF) (vparse : Cell → α) :
    Except String (List ℤ × List String × List (String × List (String × α))) :=
  match find_age_col df.cols with
  | .error e => .error e
  | .ok ac => .ok (agesList df ac, (eventsList df ac).map normalize, outMap df ac vparse)

/-- The ages component of a reshaper result (`[]` on error). -/
def agesOf {α : Type} (r : Except String (List ℤ × List String × List (String × List (String × α)))) :
    List ℤ :=
  match r with
  | .ok (a, _, _) => a
  | .error _ => []

/-- Python-dict key test `k in m`. -/
def containsKey {α : Type} (m : List (String × α)) (k : String) : Bool :=
  m.any (fun p => p.1 == k)

/-- Number of entries of a dict holding key `k`. -/
def countKey {α : Type} (m : List (String × α)) (k : String) : ℕ :=
  (m.filter (fun p => p.1 == k)).length

lemma containsKey_iff {α : Type} (m : List (String × α)) (k : String) :
    containsKey m k = true ↔ k ∈ m.map Prod.fst := by
  unfold containsKey
  rw [List.any_eq_true]
  constructor
  · rintro ⟨p, hp, he⟩
    rw [← beq_iff_eq.mp he]
    exact List.mem_map.mpr ⟨p, hp, rfl⟩
  · intro h
    obtain ⟨p, hp, he⟩ := List.mem_map.mp h
    exact ⟨p, hp, by simp [he]⟩

lemma keys_dinsert {α : Type} (m : List (String × α)) (k : String) (v : α) :
    (dinsert m k v).map Prod.fst =
      if containsKey m k then m.map Prod.fst else m.map Prod.fst ++ [k] := by
  unfold dinsert containsKey
  split
  · next hc =>
    rw [List.map_map]
    apply List.map_congr_left
    intro p hp
    show (if p.1 == k then (k, v) else p).1 = p.1
    by_cases hk : (p.1 == k) = true
    · rw [if_pos hk]
      exact (beq_iff_eq.mp hk).symm
    · rw [if_neg hk]
  · next hc =>
    simp

lemma keys_nodup_dinsert {α : Type} {m : List (String × α)} (k : String) (v : α)
    (h : (m.map Prod.fst).Nodup) : ((dinsert m k v).map Prod.fst).Nodup := by
  rw [keys_dinsert]
  split
  · exact h
  · next hc =>
    have hk : k ∉ m.map Prod.fst := fun hmem => hc ((containsKey_iff m k).mpr hmem)
    rw [List.nodup_append]
    refine ⟨h, List.nodup_singleton k, ?_⟩
    intro a ha hb
    rw [List.mem_singleton.mp hb] at ha
    exact hk ha

lemma mem_keys_dinsert_self {α : Type} (m : List (String × α)) (k : String) (v : α) :
    k ∈ (dinsert m k v).map Prod.fst := by
  rw [keys_dinsert]
  split
  · next hc => exact (containsKey_iff m k).mp hc
  · exact List.mem_append.mpr (Or.inr (by simp))

lemma mem_keys_dinsert_of_mem {α : Type} (m : List (String × α)) (k k' : String) (v : α)
    (h : k' ∈ m.map Prod.fst) : k' ∈ (dinsert m k v).map Prod.fst := by
  rw [keys_dinsert]
  split
  · exact h
  · exact List.mem_append.mpr (Or.inl h)

lemma dinsert_entry_mem {α : Type} {m : List (String × α)} {k : String} {v : α}
    {p : String × α} (h : p ∈ dinsert m k v) : p ∈ m ∨ p = (k, v) := by
  unfold dinsert at h
  split at h
  · obtain ⟨p0, hp0, hpe⟩ := List.mem_map.mp h
    by_cases hk : (p0.1 == k) = true
    · rw [if_pos hk] at hpe
      exact Or.inr hpe.symm
    · rw [if_neg hk] at hpe
      exact Or.inl (hpe ▸ hp0)
  · rcases List.mem_append.mp h with h1 | h2
    · exact Or.inl h1
    · exact Or.inr (List.mem_singleton.mp h2)

lemma foldl_dinsert_mem {α β : Type} (key : β → String) (val : β → α) :
    ∀ (es : List β) (acc : List (String × α)) (p : String × α),
      p ∈ es.foldl (fun m e => dinsert m (key e) (val e)) acc →
      p ∈ acc ∨ ∃ e ∈ es, p.1 = key e ∧ p.2 = val e := by
  intro es
  induction es with
  | nil => intro acc p h; exact Or.inl h
  | cons e rest ih =>
    intro acc p h
    rw [List.foldl_cons] at h
    rcases ih _ p h with hacc | ⟨e', he', hk, hv⟩
    · rcases dinsert_entry_mem hacc with h1 | h2
      · exact Or.inl h1
      · exact Or.inr ⟨e, List.mem_cons_self e rest, by rw [h2], by rw [h2]⟩
    · exact Or.inr ⟨e', List.mem_cons_of_mem e he', hk, hv⟩

lemma foldl_dinsert_keys_nodup {α β : Type} (key : β → String) (val : β → α) :
    ∀ (es : List β) (acc : List (String × α)),
      (acc.map Prod.fst).Nodup →
      ((es.foldl (fun m e => dinsert m (key e) (val e)) acc).map Prod.fst).Nodup := by
  intro es
  induction es with
  | nil => intro acc h; exact h
  | cons e rest ih =>
    intro acc h
    rw [List.foldl_cons]
    exact ih _ (keys_nodup_dinsert _ _ h)

lemma foldl_dinsert_keys_mono {α β : Type} (key : β → String) (val : β → α) :
    ∀ (es : List β) (acc : List (String × α)) (k : String),
      k ∈ acc.map Prod.fst →
      k ∈ (es.foldl (fun m e => dinsert m (key e) (val e)) acc).map Prod.fst := by
  intro es
  induction es with
  | nil => intro acc k h; exact h
  | cons e rest ih =>
    intro acc k h
    rw [List.foldl_cons]
    exact ih _ k (mem_keys_dinsert_of_mem _ _ _ _ h)

lemma foldl_dinsert_keys_of_mem {α β : Type} (key : β → String) (val : β → α) :
    ∀ (es : List β) (acc : List (String × α)) (e : β), e ∈ es →
      key e ∈ (es.foldl (fun m e => dinsert m (key e) (val e)) acc).map Prod.fst := by
  intro es
  induction es with
  | nil => intro acc e h; cases h
  | cons e0 rest ih =>
    intro acc e h
    rw [List.foldl_cons]
    rcases List.mem_cons.mp h with rfl | h2
    · exact foldl_dinsert_keys_mono key val rest _ _ (mem_keys_dinsert_self _ _ _)
    · exact ih _ e h2

lemma filter_key_eq_nil {α : Type} {m : List (String × α)} {k : String}
    (h : k ∉ m.map Prod.fst) : m.filter (fun p => p.1 == k) = [] := by
  rw [List.filter_eq_nil_iff]
  intro p hp hk
  exact h (List.mem_map.mpr ⟨p, hp, beq_iff_eq.mp hk⟩)

lemma countKey_eq_one {α : Type} : ∀ {m : List (String × α)} {k : String},
    (m.map Prod.fst).Nodup → k ∈ m.map Prod.fst → countKey m k = 1 := by
  intro m
  induction m with
  | nil => intro k _ h; simp at h
  | cons p t ih =>
    intro k hnd hmem
    rw [List.map_cons, List.nodup_cons] at hnd
    rw [List.map_cons] at hmem
    have hnd1 := hnd.1
    have hnd2 := hnd.2
    unfold countKey
    rcases List.mem_cons.mp hmem with heq | hmem2
    · have hpk : (p.1 == k) = true := by simp [heq]
      have hknot : k ∉ t.map Prod.fst := by
        rw [heq]
        exact hnd1
      rw [show List.filter (fun q => q.1 == k) (p :: t) =
        p :: List.filter (fun q => q.1 == k) t from List.filter_cons_of_pos hpk]
      rw [filter_key_eq_nil hknot]
      rfl
    · have hpk : ¬(p.1 == k) = true := by
        intro hbeq
        rw [beq_iff_eq.mp hbeq] at hnd1
        exact hnd1 hmem2
      rw [show List.filter (fun q => q.1 == k) (p :: t) =
        List.filter (fun q => q.1 == k) t from List.filter_cons_of_neg (by simpa using hpk)]
      exact ih hnd2 hmem2

lemma ageRowKeep_nonneg {c : Cell} (h : ageRowKeep c = true) : 0 ≤ cellToInt c := by
  cases c with
  | int n => simpa [cellToInt] using of_decide_eq_true h
  | str s => exact Int.natCast_nonneg _
  | na => exact Bool.noConfusion h
  | timedelta t => exact Bool.noConfusion h
  | timestamp t => exact Bool.noConfusion h
  | timeOfDay h1 m s us => exact Bool.noConfusion h
  | datetime h1 m s us => exact Bool.noConfusion h
  | float v => exact Bool.noConfusion h

/-- Concrete table refuting C3 as stated: age column `["5", "5", "0"]`. -/
def c3df : DF :=
  ⟨["Age", "X"], [[Cell.str "5", Cell.int 1], [Cell.str "5", Cell.int 2],
    [Cell.str "0", Cell.int 3]]⟩

/-- Counterexample to C3 as stated: the ages list of `c3df` is `[5, 5, 0]`,
which is neither pairwise-distinct nor all-positive. -/
theorem C3_counterexample :
    agesOf (df_to_age_event_map c3df (fun _ => (0 : ℤ))) = [5, 5, 0] ∧
      ¬(List.Pairwise (fun a b => a ≠ b)
          (agesOf (df_to_age_event_map c3df (fun _ => (0 : ℤ)))) ∧
        ∀ a ∈ agesOf (df_to_age_event_map c3df (fun _ => (0 : ℤ))), 0 < a) := by
  refine ⟨rfl, ?_⟩
  rw [show agesOf (df_to_age_event_map c3df (fun _ => (0 : ℤ))) = [5, 5, 0] from rfl]
  rintro ⟨hp, hpos⟩
  exact absurd (hpos 0 (by decide)) (by decide)

/-- C3 amended: for every table, each member of the ages list is a
non-negative integer parsed (by the digit filter and int cast) from some
row whose age cell passes the all-digits test; order is row order and
duplicates are kept. -/
theorem C3_amended_ages {α : Type} (vparse : Cell → α) (df : DF) (ages : List ℤ)
    (evs : List String) (out : List (String × List (String × α)))
    (h : df_to_age_event_map df vparse = .ok (ages, evs, out)) :
    ∀ a ∈ ages, 0 ≤ a ∧ ∃ r ∈ df.rows, ∃ ac, find_age_col df.cols = .ok ac ∧
      ageRowKeep (cellAt df r ac) = true ∧ a = cellToInt (cellAt df r ac) := by
  intro a ha
  unfold df_to_age_event_map at h
  cases hac : find_age_col df.cols with
  | error e => rw [hac] at h; cases h
  | ok ac =>
    rw [hac] at h
    simp only [Except.ok.injEq, Prod.mk.injEq] at h
    obtain ⟨h1, h2, h3⟩ := h
    rw [← h1] at ha
    unfold agesList keptRows at ha
    obtain ⟨r, hr, rfl⟩ := List.mem_map.mp ha
    have hrf := List.mem_filter.mp hr
    exact ⟨ageRowKeep_nonneg hrf.2, r, hrf.1, ac, rfl, hrf.2, rfl⟩

/-- Witness for the amended C3 at `c3df` and its age 0. -/
theorem C3_amended_ages_witness :
    0 ≤ (0 : ℤ) ∧ ∃ r ∈ c3df.rows, ∃ ac, find_age_col c3df.cols = .ok ac ∧
      ageRowKeep (cellAt c3df r ac) = true ∧ (0 : ℤ) = cellToInt (cellAt c3df r ac) :=
  C3_amended_ages (fun _ => (0 : ℤ)) c3df [5, 5, 0] ["X"] [("X", [("5", 0), ("0", 0)])]
    rfl 0 (by decide)

/-- C9.  Two distinct event columns whose names normalize identically
silently overwrite: the reshaper succeeds and its output dict holds exactly
one entry under the shared normalized name. -/
theorem C9_event_name_collision {α : Type} (vparse : Cell → α) (df : DF)
    (ac c1 c2 : String) (hac : find_age_col df.cols = .ok ac)
    (h1 : c1 ∈ df.cols) (_h2 : c2 ∈ df.cols) (_hne : c1 ≠ c2)
    (h1a : c1 ≠ ac) (_h2a : c2 ≠ ac) (_hcol : normalize c1 = normalize c2) :
    ∃ ages evs out, df_to_age_event_map df vparse = .ok (ages, evs, out) ∧
      countKey out (normalize c1) = 1 := by
  refine ⟨agesList df ac, (eventsList df ac).map normalize, outMap df ac vparse, ?_, ?_⟩
  · unfold df_to_age_event_map
    rw [hac]
  · have hmem : c1 ∈ eventsList df ac := by
      unfold eventsList
      refine List.mem_filter.mpr ⟨h1, ?_⟩
      simp [h1a]
    apply countKey_eq_one
    · exact foldl_dinsert_keys_nodup _ _ _ _ (by simp)
    · exact foldl_dinsert_keys_of_mem
        (fun ev => normalize ev)
        (fun ev => eventMapping df (keptRows df ac) ac ev vparse)
        (eventsList df ac) [] c1 hmem

/-- Concrete table for the C9 witness: `"A B"` and `"A  B"` normalize to
the same name. -/
def c9df : DF := ⟨["Age", "A B", "A  B"], [[Cell.str "5", Cell.int 1, Cell.int 2]]⟩

/-- Witness for C9 at `c9df`. -/
theorem C9_event_name_collision_witness :
    ∃ ages evs out, df_to_age_event_map c9df (fun c => c) = .ok (ages, evs, out) ∧
      countKey out (normalize "A B") = 1 :=
  C9_event_name_collision (fun c => c) c9df "Age" "A B" "A  B" rfl (by decide)
    (by decide) (by decide) (by decide) (by decide) rfl

/-- C10.  Every key of every event's inner map is the decimal string of
some age in the returned ages list. -/
theorem C10_inner_keys_are_ages {α : Type} (vparse : Cell → α) (df : DF)
    (ages : List ℤ) (evs : List String) (out : List (String × List (String × α)))
    (h : df_to_age_event_map df vparse = .ok (ages, evs, out)) :
    ∀ p ∈ out, ∀ q ∈ p.2, ∃ a ∈ ages, q.1 = intToStr a := by
  intro p hp q hq
  unfold df_to_age_event_map at h
  cases hac : find_age_col df.cols with
  | error e => rw [hac] at h; cases h
  | ok ac =>
    rw [hac] at h
    simp only [Except.ok.injEq, Prod.mk.injEq] at h
    obtain ⟨h1, h2, h3⟩ := h
    rw [← h3] at hp
    unfold outMap at hp
    rcases foldl_dinsert_mem (fun ev => normalize ev)
        (fun ev => eventMapping df (keptRows df ac) ac ev vparse)
        (eventsList df ac) [] p hp with hacc | ⟨ev, hev, hk, hv⟩
    · cases hacc
    · rw [hv] at hq
      unfold eventMapping at hq
      rcases foldl_dinsert_mem (fun r => intToStr (cellToInt (cellAt df r ac)))
          (fun r => vparse (cellAt df r ev))
          ((keptRows df ac).filter (fun r => !isNa (cellAt df r ac))) [] q hq with
        hacc2 | ⟨r, hr, hk2, _⟩
      · cases hacc2
      · have hrk : r ∈ keptRows df ac := (List.mem_filter.mp hr).1
        refine ⟨cellToInt (cellAt df r ac), ?_, hk2⟩
        rw [← h1]
        exact List.mem_map.mpr ⟨r, hrk, rfl⟩

/-- Witness for C10 at `c3df`: the inner key `"5"` is the string of age 5
(indeed of the list member `5`). -/
theorem C10_inner_keys_are_ages_witness :
    ∃ a ∈ [(5 : ℤ), 5, 0], ("5" : String) = intToStr a :=
  C10_inner_keys_are_ages (fun _ => (0 : ℤ)) c3df [5, 5, 0] ["X"]
    [("X", [("5", 0), ("0", 0)])] rfl ("X", [("5", 0), ("0", 0)]) (by decide)
    ("5", 0) (by decide)

end AgeGrade
